import Mathlib

/-!
Verification model of `charlotte/utils/helpers/actions.py` (the fuzzy
matcher `string_match`/`find` and the attribute-based music selector
`play_music_by_attribute`/`play_music`), together with the parts of its
third-party matching backend that those functions call:

* `difflib.SequenceMatcher` (CPython, `isjunk=None`) — `find_longest_match`,
  `get_matching_blocks`, `ratio`;
* `fuzzywuzzy` 0.18.0 — `fuzz.partial_ratio` (decorated with
  `check_for_none` only), `utils.full_process`, `process.extract` with
  `scorer=fuzz.partial_ratio` and `limit=3` (which is
  `heapq.nlargest(3, ...)` over the processed scores, i.e. a stable
  descending sort truncated to three).

Strings are modelled as `List Char`.  The model covers the regime the
application actually runs in: ASCII text (Python's `str.lower`, the regex
`(?u)\W` and `repr` are modelled on ASCII), and sequences shorter than the
`SequenceMatcher` autojunk threshold of 200 elements (below it the `b2j`
junk machinery is empty, which is the case modelled here).  Scores are
exact rationals rounded half-to-even, which agrees with CPython's
`int(round(100 * float(2m/t)))` for the string lengths in this regime.
-/

set_option maxRecDepth 20000

/-- Length of the longest common prefix of two lists (the run of equal
elements starting at the given positions of the two strings). -/
def commonRun : List Char → List Char → Nat
  | x :: xs, y :: ys => if x = y then commonRun xs ys + 1 else 0
  | _, _ => 0

/-- All candidate matches examined by `SequenceMatcher.find_longest_match`
on the region `[alo, ahi) × [blo, bhi)`: position pairs with the length of
the equal run starting there (clipped to the region). -/
def flmCands (a b : List Char) (alo ahi blo bhi : Nat) : List (Nat × Nat × Nat) :=
  (List.range (ahi - alo)).flatMap fun di =>
    (List.range (bhi - blo)).map fun dj =>
      let i := alo + di
      let j := blo + dj
      (i, j, commonRun ((a.drop i).take (ahi - i)) ((b.drop j).take (bhi - j)))

/-- One step of the running-best update of `find_longest_match`: a candidate
replaces the best only when its run is strictly longer. -/
def betterCand (best c : Nat × Nat × Nat) : Nat × Nat × Nat :=
  if best.2.2 < c.2.2 then c else best

/-- Fold the strict-improvement update over a candidate list. -/
def pickBest (init : Nat × Nat × Nat) (l : List (Nat × Nat × Nat)) : Nat × Nat × Nat :=
  l.foldl betterCand init

/-- `SequenceMatcher.find_longest_match` with `isjunk=None` and no autojunk:
per its documented contract it returns the triple `(i, j, k)` with `a[i:i+k]
= b[j:j+k]` inside the region, `k` maximal, then `i` minimal, then `j`
minimal, and `(alo, blo, 0)` when nothing matches.  (The candidate scan in
iteration order with strict improvement realises exactly that tie-break;
with empty junk sets the four junk-extension loops of the CPython code are
no-ops because `k` is already maximal.) -/
def flm (a b : List Char) (alo ahi blo bhi : Nat) : Nat × Nat × Nat :=
  pickBest (alo, blo, 0) (flmCands a b alo ahi blo bhi)

/-- Recursive core of `SequenceMatcher.get_matching_blocks`: find the
longest match of the region, recurse on the region to its left (only when
both sides are nonempty, as in CPython) and on the region to its right.
CPython drains a stack and sorts at the end; since every block found left
of the middle block starts strictly before it and every block right of it
starts strictly after, the sorted list is exactly this in-order
concatenation.  The fuel argument dominates the region width, which bounds
the recursion depth; callers pass `a.length + 1`. -/
def mbAux (a b : List Char) : Nat → Nat → Nat → Nat → Nat → List (Nat × Nat × Nat)
  | 0, _, _, _, _ => []
  | fuel + 1, alo, ahi, blo, bhi =>
    let m := flm a b alo ahi blo bhi
    if m.2.2 = 0 then []
    else
      (if alo < m.1 ∧ blo < m.2.1 then mbAux a b fuel alo m.1 blo m.2.1 else []) ++
        m :: (if m.1 + m.2.2 < ahi ∧ m.2.1 + m.2.2 < bhi then
          mbAux a b fuel (m.1 + m.2.2) ahi (m.2.1 + m.2.2) bhi else [])

/-- The adjacent-block collapsing loop at the end of
`get_matching_blocks`: running block `(i1, j1, k1)` absorbs a following
block that starts exactly where it ends in both strings; a finished block
is emitted only when its length is nonzero (the initial `(0,0,0)` state is
silently dropped). -/
def collapseBlocks : Nat → Nat → Nat → List (Nat × Nat × Nat) → List (Nat × Nat × Nat)
  | i1, j1, k1, [] => if k1 ≠ 0 then [(i1, j1, k1)] else []
  | i1, j1, k1, (i2, j2, k2) :: rest =>
    if i1 + k1 = i2 ∧ j1 + k1 = j2 then collapseBlocks i1 j1 (k1 + k2) rest
    else (if k1 ≠ 0 then [(i1, j1, k1)] else []) ++ collapseBlocks i2 j2 k2 rest

/-- `SequenceMatcher.get_matching_blocks`: the collapsed in-order block
list followed by the dummy terminator `(len a, len b, 0)`. -/
def getMatchingBlocks (a b : List Char) : List (Nat × Nat × Nat) :=
  collapseBlocks 0 0 0 (mbAux a b (a.length + 1) 0 a.length 0 b.length) ++
    [(a.length, b.length, 0)]

/-- Total size of a block list (the `matches` count of
`SequenceMatcher.ratio`). -/
def sumK (l : List (Nat × Nat × Nat)) : Nat := (l.map fun x => x.2.2).sum

/-- The match count `matches` of `SequenceMatcher(None, a, b).ratio()`;
the ratio itself is the rational `2 * ratioM a b / (a.length + b.length)`
(and `1.0` when both strings are empty). -/
def ratioM (a b : List Char) : Nat := sumK (getMatchingBlocks a b)

/-- Round a nonnegative rational `num/den` half to even, as CPython's
`round` does on the corresponding float. -/
def roundHE (num den : Nat) : Nat :=
  if 2 * (num % den) < den then num / den
  else if den < 2 * (num % den) then num / den + 1
  else if (num / den) % 2 = 0 then num / den else num / den + 1

/-- First-maximal fold used for Python's `max(scores)` over the per-block
ratios, kept as exact fractions `(m, t)` standing for `2m/t` with `t > 0`:
a later score replaces the current best only when strictly greater. -/
def maxFrac (s : Nat × Nat) (l : List (Nat × Nat)) : Nat × Nat :=
  l.foldl (fun best c => if best.1 * c.2 < c.1 * best.2 then c else best) s

/-- The per-block loop of `fuzz.partial_ratio`: align the `longer` string
at each matching block, compare the `shorter` string against that
same-length slice, return `100` as soon as a block ratio exceeds `.995`
(`2m/t > 199/200`, and `1.0` when `t = 0`), otherwise collect the
fraction; after the loop, round `100 * max(scores)`. The block list always
contains the dummy terminator, so the accumulator is nonempty when the
loop finishes; the `[] => 0` fallback is unreachable. -/
def prGo (shorter longer : List Char) : List (Nat × Nat × Nat) → List (Nat × Nat) → Nat
  | [], acc =>
    match acc with
    | [] => 0
    | s :: ss =>
      let best := maxFrac s ss
      roundHE (200 * best.1) best.2
  | (bi, bj, _bk) :: rest, acc =>
    let longStart := if bi < bj then bj - bi else 0
    let longSub := (longer.drop longStart).take shorter.length
    let m := ratioM shorter longSub
    let t := shorter.length + longSub.length
    if t = 0 then 100
    else if 199 * t < 400 * m then 100
    else prGo shorter longer rest (acc ++ [(m, t)])

/-- `fuzz.partial_ratio` after the shorter/longer choice. -/
def pRatioOrdered (shorter longer : List Char) : Nat :=
  prGo shorter longer (getMatchingBlocks shorter longer) []

/-- `fuzz.partial_ratio(s1, s2)` (fuzzywuzzy 0.18.0, difflib backend): the
first argument is the shorter string when the lengths tie or `s1` is
shorter, otherwise the arguments swap.  The `check_for_none` decorator is
not modelled: no call site of this repository passes `None` into the
scorer (the tuple re-score stringifies its argument first). -/
def pRatio (s1 s2 : List Char) : Nat :=
  if s1.length ≤ s2.length then pRatioOrdered s1 s2 else pRatioOrdered s2 s1

/-- The apostrophe character (written by code to avoid quoting issues). -/
def apos : Char := Char.ofNat 39

/-- The double-quote character. -/
def quot : Char := Char.ofNat 34

/-- The backslash character. -/
def bslash : Char := Char.ofNat 92

/-- ASCII model of the word characters of the `(?u)\W` regex used by
`fuzzywuzzy.StringProcessor`: digits, letters and the underscore. -/
def isWordChar (c : Char) : Bool :=
  (48 ≤ c.toNat ∧ c.toNat ≤ 57) ∨ (65 ≤ c.toNat ∧ c.toNat ≤ 90) ∨
    (97 ≤ c.toNat ∧ c.toNat ≤ 122) ∨ c.toNat = 95

/-- ASCII model of Python `str.lower` on one character. -/
def pyLowerChar (c : Char) : Char :=
  if 65 ≤ c.toNat ∧ c.toNat ≤ 90 then Char.ofNat (c.toNat + 32) else c

/-- `StringProcessor.replace_non_letters_non_numbers_with_whitespace`:
every non-word character becomes a single space. -/
def replaceNonWord (s : List Char) : List Char :=
  s.map fun c => if isWordChar c then c else ' '

/-- Python whitespace stripped by `str.strip()` (ASCII part). -/
def isPySpace (c : Char) : Bool :=
  c = ' ' ∨ c.toNat = 9 ∨ c.toNat = 10 ∨ c.toNat = 11 ∨ c.toNat = 12 ∨ c.toNat = 13

/-- Python `str.strip()`. -/
def pyStrip (s : List Char) : List Char :=
  ((s.dropWhile isPySpace).reverse.dropWhile isPySpace).reverse

/-- `fuzzywuzzy.utils.full_process` with `force_ascii=False` (the default
used by `process.extract`): replace non-word characters by spaces, lower,
strip. -/
def fullProcess (s : List Char) : List Char :=
  pyStrip ((replaceNonWord s).map pyLowerChar)

/-- Insertion step of a stable descending sort by score: the inserted
element passes every earlier element with a greater-or-equal key, so
equal-keyed elements keep their original relative order. -/
def insertDesc (x : List Char × Nat) : List (List Char × Nat) → List (List Char × Nat)
  | [] => [x]
  | y :: ys => if y.2 ≤ x.2 then x :: y :: ys else y :: insertDesc x ys

/-- Stable descending sort by score. -/
def sortDesc (l : List (List Char × Nat)) : List (List Char × Nat) :=
  l.foldr insertDesc []

/-- `fuzzywuzzy.process.extract(query, choices, limit=3,
scorer=fuzz.partial_ratio)`: score every choice with
`partial_ratio(full_process(query), full_process(choice))` (the
`score_cutoff` of 0 never filters), then take the three largest with
`heapq.nlargest`, which is the stable descending sort truncated to 3. -/
def extractBest3 (query : List Char) (choices : List (List Char)) :
    List (List Char × Nat) :=
  (sortDesc (choices.map fun c => (c, pRatio (fullProcess query) (fullProcess c)))).take 3

/-- Lower-case hex digit (for `repr` escapes of control characters). -/
def hexDigit (n : Nat) : Char :=
  if n < 10 then Char.ofNat (48 + n) else Char.ofNat (87 + n)

/-- One character of Python `repr` of a string, given the chosen quote
character (ASCII model): escape the backslash, the quote, newline,
carriage return, tab, and other control characters as `\xhh`. -/
def pyEscapeChar (q c : Char) : List Char :=
  if c = bslash then [bslash, bslash]
  else if c = q then [bslash, q]
  else if c.toNat = 10 then [bslash, 'n']
  else if c.toNat = 13 then [bslash, 'r']
  else if c.toNat = 9 then [bslash, 't']
  else if c.toNat < 32 ∨ c.toNat = 127 then [bslash, 'x', hexDigit (c.toNat / 16), hexDigit (c.toNat % 16)]
  else [c]

/-- The quote character Python `repr` picks for a string: single quotes
unless the string contains a single quote but no double quote. -/
def pyReprQuote (s : List Char) : Char :=
  if s.contains apos ∧ ¬ s.contains quot then quot else apos

/-- Python `repr` of a string (ASCII model). -/
def pyReprStr (s : List Char) : List Char :=
  pyReprQuote s :: s.flatMap (pyEscapeChar (pyReprQuote s)) ++ [pyReprQuote s]

/-- Python `str((s, n))` for a pair of a string and an integer, e.g.
`('Rock', 100)` — this is the value `fuzz.partial_ratio` receives when the
code re-scores a shortlist *tuple*, which `make_type_consistent` turns
into this very string. -/
def pyStrPair (g : List Char × Nat) : List Char :=
  '(' :: pyReprStr g.1 ++ ',' :: ' ' :: (Nat.repr g.2).data ++ [')']

/-- The no-match message of `string_match`:
`Sorry, I could'nt find a matching '{text}'.` -/
def smNoMatch (text : List Char) : List Char :=
  "Sorry, I could".data ++ apos :: "nt find a matching ".data ++
    apos :: text ++ apos :: ".".data

/-- The no-match message of `find`:
`Sorry, I could'nt find '{file}' in the directory.` -/
def findNoMatch (file : List Char) : List Char :=
  "Sorry, I could".data ++ apos :: "nt find ".data ++
    apos :: file ++ apos :: " in the directory.".data

/-- The `for best_guess in guessed:` loop shared by `string_match` and
`find`: both branches of its body `return`, so the loop either returns on
the very first shortlist entry or (empty shortlist) falls through, here
`none`.  The re-computed score is
`fuzz.partial_ratio(text, best_guess)` where `best_guess` is the whole
`(candidate, score)` tuple, stringified by `make_type_consistent`. -/
def matchLoop (t : List Char) (ms : Nat) : List (List Char × Nat) → Option (List Char)
  | [] => none
  | bg :: _ =>
    let cs := pRatio t (pyStrPair bg)
    if ms < cs ∧ 0 < cs then some bg.1 else some (smNoMatch t)

/-- `string_match(text, text_list, min_score)`: `None` query falls through
the `if text is not None` guard and returns Python `None` (`none`); an
empty extraction also falls off the end (`none`); otherwise the result of
the first loop iteration.  Note the success branch returns only
`best_guess[0]`, without the score. -/
def string_match (text : Option (List Char)) (text_list : List (List Char))
    (min_score : Nat) : Option (List Char) :=
  match text with
  | none => none
  | some t => matchLoop t min_score (extractBest3 t text_list)

/-- The loop body of `find`, which does return the score alongside the
candidate (and the message with score 0). -/
def findLoop (file : List Char) (ms : Nat) :
    List (List Char × Nat) → Option (List Char × Nat)
  | [] => none
  | bg :: _ =>
    let cs := pRatio file (pyStrPair bg)
    if ms < cs ∧ 0 < cs then some (bg.1, cs) else some (findNoMatch file, 0)

/-- `find(file, file_dir, min_score)`.  `os.walk` is modelled by the list
of file-name lists of the visited directories in top-down walk order (the
top-level directory first).  A directory whose file list is empty yields
an empty extraction, so the walk continues into the next directory; when
the walk is exhausted the function falls off the end and returns `None`. -/
def find (file : List Char) (walk : List (List (List Char))) (ms : Nat) :
    Option (List Char × Nat) :=
  match walk with
  | [] => none
  | files :: rest =>
    match findLoop file ms (extractBest3 file files) with
    | some r => some r
    | none => find file rest ms

/-- Observable side effects of the playback functions: `os.startfile` and
the `print` in an `except` block (the error log). -/
inductive Effect
  | startfile (path : List Char)
  | logError
deriving DecidableEq, Repr

/-- Faults that the modelled bodies can raise and the enclosing
`try/except Exception` blocks catch: unpacking `None` as a tuple, passing
a non-string (a `NaN` cell) to the regex processor, and an out-of-range
`iloc` index. -/
inductive Fault
  | typeError
  | indexError
deriving DecidableEq, Repr

/-- `os.path.join(dir, name)` (Windows flavour, as the repository runs
against `D:/Music`): append a separator unless `dir` already ends with
one. -/
def pyJoin (dir name : List Char) : List Char :=
  if dir ≠ [] ∧ (dir.getLast? = some '/' ∨ dir.getLast? = some bslash) then dir ++ name
  else dir ++ bslash :: name

/-- Body of `find` as called with an arbitrary Python value for `file`:
a `NaN` cell (modelled `none`) raises a `TypeError` inside
`process.extract`'s `full_process` before anything else happens. -/
def findRun (file : Option (List Char)) (walk : List (List (List Char))) (ms : Nat) :
    List Effect × Except Fault (Option (List Char × Nat)) :=
  match file with
  | none => ([], .error .typeError)
  | some f => ([], .ok (find f walk ms))

/-- The `try/except` boundary shared by all public operations: a fault is
converted into an error log plus Python's implicit `None` return. -/
def catchAll (r : List Effect × Except Fault (Option α)) :
    List Effect × Except Fault (Option α) :=
  match r.2 with
  | .ok v => (r.1, .ok v)
  | .error _ => (r.1 ++ [.logError], .ok none)

/-- Public `find`: its whole body sits in a `try/except Exception` that
prints and returns `None`. -/
def findTop (file : Option (List Char)) (walk : List (List (List Char))) (ms : Nat) :
    List Effect × Except Fault (Option (List Char × Nat)) :=
  catchAll (findRun file walk ms)

/-- Helper to read the value a public operation returned (the boundary
never leaves an `.error`, so the fallback is unreachable). -/
def retVal (r : List Effect × Except Fault (Option α)) : Option α :=
  match r.2 with
  | .ok v => v
  | .error _ => none

/-- Body of `play_music(file, file_dir)` for a non-`None` `file` argument
(the only way the selector calls it; `file` may still be a `NaN` cell).
`file_name, file_score = find(...)` raises a `TypeError` when `find`
returned `None`; a zero score means `file_name` holds the no-match message
and is returned; otherwise the joined path is opened with
`os.startfile`. -/
def playMusicRun (file : Option (List Char)) (walk : List (List (List Char)))
    (dir : List Char) : List Effect × Except Fault (Option (List Char)) :=
  let fr := findTop file walk 65
  match retVal fr with
  | none => (fr.1, .error .typeError)
  | some (name, score) =>
    if score = 0 then (fr.1, .ok (some name))
    else (fr.1 ++ [.startfile (pyJoin dir name)], .ok none)

/-- Public `play_music` (for a supplied `file`): body plus its
`try/except` boundary. -/
def playMusicTop (file : Option (List Char)) (walk : List (List (List Char)))
    (dir : List Char) : List Effect × Except Fault (Option (List Char)) :=
  catchAll (playMusicRun file walk dir)

/-- One row of the music CSV.  `music_file` is the first column (the one
`iloc[..., 0]` reads); a missing value (pandas `NaN`) is `none`. -/
structure Track where
  music_file : Option (List Char)
  track_name : Option (List Char)
  track_artist : Option (List Char)
  track_albumartist : Option (List Char)
  track_composer : Option (List Char)
  track_album : Option (List Char)
  track_genre : Option (List Char)
  track_duration : Option (List Char)
  track_year : Option (List Char)
  track_filesize : Option (List Char)
deriving DecidableEq, Repr

/-- The nine attribute query fragments of `play_music_by_attribute`
(each may be Python `None`). -/
structure AttrQuery where
  track_name : Option (List Char)
  track_artist : Option (List Char)
  track_albumartist : Option (List Char)
  track_composer : Option (List Char)
  track_album : Option (List Char)
  track_genre : Option (List Char)
  track_duration : Option (List Char)
  track_year : Option (List Char)
  track_filesize : Option (List Char)
deriving DecidableEq, Repr

/-- The all-`None` query. -/
def AttrQuery.null : AttrQuery :=
  ⟨none, none, none, none, none, none, none, none, none⟩

/-- The nine recognised attribute columns, in the order of the
`master_dict` literal. -/
inductive ColId
  | track_name | track_artist | track_albumartist | track_composer
  | track_album | track_genre | track_duration | track_year | track_filesize
deriving DecidableEq, Repr

/-- The fixed column order of the `master_dict` literal. -/
def colIds : List ColId :=
  [.track_name, .track_artist, .track_albumartist, .track_composer,
   .track_album, .track_genre, .track_duration, .track_year, .track_filesize]

/-- The dataset column selected by a column id. -/
def colProj : ColId → Track → Option (List Char)
  | .track_name => Track.track_name
  | .track_artist => Track.track_artist
  | .track_albumartist => Track.track_albumartist
  | .track_composer => Track.track_composer
  | .track_album => Track.track_album
  | .track_genre => Track.track_genre
  | .track_duration => Track.track_duration
  | .track_year => Track.track_year
  | .track_filesize => Track.track_filesize

/-- The query fragment supplied for a column. -/
def colFrag : ColId → AttrQuery → Option (List Char)
  | .track_name => AttrQuery.track_name
  | .track_artist => AttrQuery.track_artist
  | .track_albumartist => AttrQuery.track_albumartist
  | .track_composer => AttrQuery.track_composer
  | .track_album => AttrQuery.track_album
  | .track_genre => AttrQuery.track_genre
  | .track_duration => AttrQuery.track_duration
  | .track_year => AttrQuery.track_year
  | .track_filesize => AttrQuery.track_filesize

/-- `df[column].dropna().tolist()`: the non-missing values of one column
over the whole dataset, in row order. -/
def columnValues (df : List Track) (c : ColId) : List (List Char) :=
  df.filterMap (colProj c)

/-- The `master_dict` literal: for every recognised column, the result of
`string_match(fragment, column values, 65)` — which is Python `None`
(`none`) when the fragment is `None` or the column has no values, the
matched candidate on success, and the no-match *message* on failure. -/
def masterTriples (q : AttrQuery) (df : List Track) : List (ColId × Option (List Char)) :=
  colIds.map fun c => (c, string_match (colFrag c q) (columnValues df c) 65)

/-- `filtered_dict = {k: v for k, v in master_dict.items() if v is not
None}`: the selector's column filter.  Note it keeps the no-match message
of a failed match — only `None` entries are dropped. -/
def filteredPairs (q : AttrQuery) (df : List Track) : List (ColId × List Char) :=
  (masterTriples q df).filterMap fun p => p.2.map fun v => (p.1, v)

/-- One row's final mask value: the conjunction of
`df[column] == value` over the filter (pandas equality is exact and a
missing cell never equals a string). -/
def rowOk (flt : List (ColId × List Char)) (t : Track) : Bool :=
  flt.all fun p => colProj p.1 t == some p.2

/-- The not-found reply of the selector:
`Sorry, {title}. I couldn't find any combination of the search
parameters.` -/
def noCombiMsg (title : List Char) : List Char :=
  "Sorry, ".data ++ title ++ ". I couldn".data ++ apos ::
    "t find any combination of the search parameters.".data

/-- Body of `play_music_by_attribute`.  A supplied `music_file` goes
straight to `play_music(music_file)` (whose own boundary swallows its
faults) and the selector returns `None`.  Otherwise the column filter is
built, the mask applied, and of the matching rows: more than one —
`iloc[randint(0, len), 0]`, where `randint` is **inclusive** of `len`, so
the random draw `rand` is any value `0 ≤ rand ≤ len` and the value `len`
raises an `IndexError`; exactly one — `iloc[0, 0]`; none — the not-found
reply.  `rand` models the value drawn from `random.randint`. -/
def pmbaRun (music_file : Option (List Char)) (q : AttrQuery) (df : List Track)
    (rand : Nat) (walk : List (List (List Char))) (dir : List Char)
    (title : List Char) : List Effect × Except Fault (Option (List Char)) :=
  match music_file with
  | some f => ((playMusicTop (some f) walk dir).1, .ok none)
  | none =>
    let flt := filteredPairs q df
    let matching := df.filter (rowOk flt)
    if h1 : 1 < matching.length then
      if h2 : rand < matching.length then
        ((playMusicTop (matching.get ⟨rand, h2⟩).music_file walk dir).1, .ok none)
      else ([], .error .indexError)
    else if h3 : matching.length = 1 then
      ((playMusicTop (matching.get ⟨0, by omega⟩).music_file walk dir).1, .ok none)
    else ([], .ok (some (noCombiMsg title)))

/-- Public `play_music_by_attribute`: body plus its `try/except`
boundary. -/
def pmbaTop (music_file : Option (List Char)) (q : AttrQuery) (df : List Track)
    (rand : Nat) (walk : List (List (List Char))) (dir : List Char)
    (title : List Char) : List Effect × Except Fault (Option (List Char)) :=
  catchAll (pmbaRun music_file q df rand walk dir title)

/-- Public `string_match`: its body is total in the model (its `text_list`
is always a list of strings at the selector's call sites), so the boundary
has nothing to catch. -/
def stringMatchTop (text : Option (List Char)) (text_list : List (List Char))
    (min_score : Nat) : List Effect × Except Fault (Option (List Char)) :=
  catchAll ([], .ok (string_match text text_list min_score))

theorem commonRun_le_left (xs ys : List Char) : commonRun xs ys ≤ xs.length := by
  induction xs generalizing ys with
  | nil => cases ys <;> simp [commonRun]
  | cons x xs ih =>
    cases ys with
    | nil => simp [commonRun]
    | cons y ys =>
      simp only [commonRun, List.length_cons]
      split
      · exact Nat.succ_le_succ (ih ys)
      · omega

theorem commonRun_le_right (xs ys : List Char) : commonRun xs ys ≤ ys.length := by
  induction xs generalizing ys with
  | nil => cases ys <;> simp [commonRun]
  | cons x xs ih =>
    cases ys with
    | nil => simp [commonRun]
    | cons y ys =>
      simp only [commonRun, List.length_cons]
      split
      · exact Nat.succ_le_succ (ih ys)
      · omega

theorem commonRun_append (xs zs : List Char) : commonRun xs (xs ++ zs) = xs.length := by
  induction xs with
  | nil => cases zs <;> simp [commonRun]
  | cons x xs ih => simp [commonRun, ih]

theorem commonRun_full (xs ys : List Char) (h : commonRun xs ys = xs.length) :
    ys.take xs.length = xs := by
  induction xs generalizing ys with
  | nil => simp
  | cons x xs ih =>
    cases ys with
    | nil => simp [commonRun] at h
    | cons y ys =>
      simp only [commonRun, List.length_cons] at h
      by_cases hxy : x = y
      · rw [if_pos hxy] at h
        simp only [List.length_cons, List.take_succ_cons]
        rw [ih ys (by omega), hxy]
      · rw [if_neg hxy] at h
        omega

theorem pickBest_eq_or_mem (l : List (Nat × Nat × Nat)) :
    ∀ init, pickBest init l = init ∨ pickBest init l ∈ l := by
  induction l with
  | nil => intro init; left; rfl
  | cons c l ih =>
    intro init
    have h := ih (betterCand init c)
    unfold pickBest at *
    simp only [List.foldl_cons]
    rcases h with h | h
    · rw [h]
      unfold betterCand
      split
      · right; simp
      · left; rfl
    · right; simp [h]

theorem pickBest_ge (l : List (Nat × Nat × Nat)) :
    ∀ init, init.2.2 ≤ (pickBest init l).2.2 ∧ ∀ c ∈ l, c.2.2 ≤ (pickBest init l).2.2 := by
  induction l with
  | nil => intro init; exact ⟨Nat.le_refl _, by simp⟩
  | cons c l ih =>
    intro init
    have h := ih (betterCand init c)
    have hb1 : init.2.2 ≤ (betterCand init c).2.2 := by unfold betterCand; split <;> omega
    have hb2 : c.2.2 ≤ (betterCand init c).2.2 := by unfold betterCand; split <;> omega
    unfold pickBest at *
    simp only [List.foldl_cons]
    refine ⟨Nat.le_trans hb1 h.1, ?_⟩
    intro d hd
    rcases List.mem_cons.mp hd with rfl | h'
    · exact Nat.le_trans hb2 h.1
    · exact h.2 d h'

theorem mem_flmCands {a b : List Char} {alo ahi blo bhi : Nat} {c : Nat × Nat × Nat} :
    c ∈ flmCands a b alo ahi blo bhi ↔
      ∃ di dj, di < ahi - alo ∧ dj < bhi - blo ∧
        c = (alo + di, blo + dj,
          commonRun ((a.drop (alo + di)).take (ahi - (alo + di)))
            ((b.drop (blo + dj)).take (bhi - (blo + dj)))) := by
  simp only [flmCands, List.mem_flatMap, List.mem_map, List.mem_range]
  constructor
  · rintro ⟨di, hdi, dj, hdj, rfl⟩
    exact ⟨di, dj, hdi, hdj, rfl⟩
  · rintro ⟨di, dj, hdi, hdj, rfl⟩
    exact ⟨di, hdi, dj, hdj, rfl⟩

theorem flm_bounds (a b : List Char) (alo ahi blo bhi : Nat)
    (ha : alo ≤ ahi) (hb : blo ≤ bhi) :
    alo ≤ (flm a b alo ahi blo bhi).1 ∧
    (flm a b alo ahi blo bhi).1 + (flm a b alo ahi blo bhi).2.2 ≤ ahi ∧
    blo ≤ (flm a b alo ahi blo bhi).2.1 ∧
    (flm a b alo ahi blo bhi).2.1 + (flm a b alo ahi blo bhi).2.2 ≤ bhi := by
  rcases pickBest_eq_or_mem (flmCands a b alo ahi blo bhi) (alo, blo, 0) with h | h
  · unfold flm; rw [h]; simp; omega
  · rcases mem_flmCands.mp h with ⟨di, dj, hdi, hdj, hc⟩
    unfold flm
    rw [hc]
    have h1 := commonRun_le_left ((a.drop (alo + di)).take (ahi - (alo + di)))
      ((b.drop (blo + dj)).take (bhi - (blo + dj)))
    have h2 := commonRun_le_right ((a.drop (alo + di)).take (ahi - (alo + di)))
      ((b.drop (blo + dj)).take (bhi - (blo + dj)))
    have h3 : ((a.drop (alo + di)).take (ahi - (alo + di))).length ≤ ahi - (alo + di) := by
      simp [List.length_take]
    have h4 : ((b.drop (blo + dj)).take (bhi - (blo + dj))).length ≤ bhi - (blo + dj) := by
      simp [List.length_take]
    simp only []
    omega


theorem flm_substring (s pre post : List Char) (hs : s ≠ []) :
    ∃ j, flm s (pre ++ s ++ post) 0 s.length 0 (pre ++ s ++ post).length =
      (0, j, s.length) ∧ ((pre ++ s ++ post).drop j).take s.length = s := by
  have hn : 0 < s.length := List.length_pos.mpr hs
  have hLlen : (pre ++ s ++ post).length = pre.length + s.length + post.length := by
    simp [List.length_append]; omega
  -- the candidate at (0, pre.length) matches the whole of s
  have hdrop : (pre ++ s ++ post).drop pre.length = s ++ post := by
    rw [List.append_assoc, List.drop_left]
  have hcand : commonRun ((s.drop 0).take (s.length - 0))
      (((pre ++ s ++ post).drop pre.length).take ((pre ++ s ++ post).length - pre.length)) =
      s.length := by
    rw [hdrop, List.drop_zero, Nat.sub_zero, List.take_length]
    rw [show (pre ++ s ++ post).length - pre.length = (s ++ post).length by
      rw [hLlen]; simp [List.length_append]; omega]
    rw [List.take_length, commonRun_append]
  have hmem : ((0 : Nat) + 0, (0 : Nat) + pre.length,
      commonRun ((s.drop (0 + 0)).take (s.length - (0 + 0)))
        (((pre ++ s ++ post).drop (0 + pre.length)).take
          ((pre ++ s ++ post).length - (0 + pre.length)))) ∈
      flmCands s (pre ++ s ++ post) 0 s.length 0 (pre ++ s ++ post).length := by
    refine mem_flmCands.mpr ⟨0, pre.length, by omega, by rw [hLlen]; omega, rfl⟩
  have hge := (pickBest_ge
    (flmCands s (pre ++ s ++ post) 0 s.length 0 (pre ++ s ++ post).length) (0, 0, 0)).2 _ hmem
  simp only [Nat.zero_add] at hge
  rw [hcand] at hge
  rcases pickBest_eq_or_mem
      (flmCands s (pre ++ s ++ post) 0 s.length 0 (pre ++ s ++ post).length) (0, 0, 0) with
    he | he
  · exfalso
    have : (pickBest (0, 0, 0)
        (flmCands s (pre ++ s ++ post) 0 s.length 0 (pre ++ s ++ post).length)).2.2 = 0 := by
      rw [he]
    omega
  · rcases mem_flmCands.mp he with ⟨di, dj, hdi, hdj, hc⟩
    simp only [Nat.zero_add] at hc
    unfold flm
    rw [hc] at hge ⊢
    simp only [] at hge ⊢
    -- the run at (di, dj) is at least s.length yet at most s.length - di, so di = 0
    have hkle : commonRun ((s.drop di).take (s.length - di))
        (((pre ++ s ++ post).drop dj).take ((pre ++ s ++ post).length - dj)) ≤
        s.length - di := by
      have h1 := commonRun_le_left ((s.drop di).take (s.length - di))
        (((pre ++ s ++ post).drop dj).take ((pre ++ s ++ post).length - dj))
      have h2 : ((s.drop di).take (s.length - di)).length ≤ s.length - di := by
        simp [List.length_take]
      omega
    have hdi0 : di = 0 := by omega
    subst hdi0
    simp only [List.drop_zero, Nat.sub_zero, List.take_length] at hkle hge hc ⊢
    have hkeq : commonRun s
        (((pre ++ s ++ post).drop dj).take ((pre ++ s ++ post).length - dj)) = s.length := by
      omega
    refine ⟨dj, by rw [hkeq], ?_⟩
    have hfull := commonRun_full s _ hkeq
    have hwlen : s.length ≤
        ((((pre ++ s ++ post).drop dj).take ((pre ++ s ++ post).length - dj))).length := by
      have h3 := commonRun_le_right s
        (((pre ++ s ++ post).drop dj).take ((pre ++ s ++ post).length - dj))
      omega
    rw [List.take_take] at hfull
    have hmin : min s.length ((pre ++ s ++ post).length - dj) = s.length := by
      simp only [List.length_take, List.length_drop] at hwlen
      omega
    rwa [hmin] at hfull

theorem sumK_append (l1 l2 : List (Nat × Nat × Nat)) :
    sumK (l1 ++ l2) = sumK l1 + sumK l2 := by
  simp [sumK]

theorem mbAux_sum (a b : List Char) :
    ∀ fuel alo ahi blo bhi, alo ≤ ahi → blo ≤ bhi →
      sumK (mbAux a b fuel alo ahi blo bhi) ≤ ahi - alo ∧
      sumK (mbAux a b fuel alo ahi blo bhi) ≤ bhi - blo := by
  intro fuel
  induction fuel with
  | zero => intro alo ahi blo bhi _ _; simp [mbAux, sumK]
  | succ fuel ih =>
    intro alo ahi blo bhi ha hb
    obtain ⟨hb1, hb2, hb3, hb4⟩ := flm_bounds a b alo ahi blo bhi ha hb
    simp only [mbAux]
    split
    · simp [sumK]
    · rename_i hk
      rw [sumK_append]
      simp only [sumK, List.map_cons, List.sum_cons] at *
      constructor
      · have hl : sumK (if alo < (flm a b alo ahi blo bhi).1 ∧ blo < (flm a b alo ahi blo bhi).2.1
            then mbAux a b fuel alo (flm a b alo ahi blo bhi).1 blo (flm a b alo ahi blo bhi).2.1
            else []) ≤ (flm a b alo ahi blo bhi).1 - alo := by
          split
          · rename_i hcond
            exact (ih alo (flm a b alo ahi blo bhi).1 blo (flm a b alo ahi blo bhi).2.1
              (by omega) (by omega)).1
          · simp [sumK]
        have hr : sumK (if (flm a b alo ahi blo bhi).1 + (flm a b alo ahi blo bhi).2.2 < ahi ∧
              (flm a b alo ahi blo bhi).2.1 + (flm a b alo ahi blo bhi).2.2 < bhi
            then mbAux a b fuel ((flm a b alo ahi blo bhi).1 + (flm a b alo ahi blo bhi).2.2) ahi
              ((flm a b alo ahi blo bhi).2.1 + (flm a b alo ahi blo bhi).2.2) bhi
            else []) ≤ ahi - ((flm a b alo ahi blo bhi).1 + (flm a b alo ahi blo bhi).2.2) := by
          split
          · rename_i hcond
            exact (ih _ ahi _ bhi (by omega) (by omega)).1
          · simp [sumK]
        simp only [sumK] at hl hr
        omega
      · have hl : sumK (if alo < (flm a b alo ahi blo bhi).1 ∧ blo < (flm a b alo ahi blo bhi).2.1
            then mbAux a b fuel alo (flm a b alo ahi blo bhi).1 blo (flm a b alo ahi blo bhi).2.1
            else []) ≤ (flm a b alo ahi blo bhi).2.1 - blo := by
          split
          · rename_i hcond
            exact (ih alo (flm a b alo ahi blo bhi).1 blo (flm a b alo ahi blo bhi).2.1
              (by omega) (by omega)).2
          · simp [sumK]
        have hr : sumK (if (flm a b alo ahi blo bhi).1 + (flm a b alo ahi blo bhi).2.2 < ahi ∧
              (flm a b alo ahi blo bhi).2.1 + (flm a b alo ahi blo bhi).2.2 < bhi
            then mbAux a b fuel ((flm a b alo ahi blo bhi).1 + (flm a b alo ahi blo bhi).2.2) ahi
              ((flm a b alo ahi blo bhi).2.1 + (flm a b alo ahi blo bhi).2.2) bhi
            else []) ≤ bhi - ((flm a b alo ahi blo bhi).2.1 + (flm a b alo ahi blo bhi).2.2) := by
          split
          · rename_i hcond
            exact (ih _ ahi _ bhi (by omega) (by omega)).2
          · simp [sumK]
        simp only [sumK] at hl hr
        omega

theorem collapseBlocks_sum (l : List (Nat × Nat × Nat)) :
    ∀ i1 j1 k1, sumK (collapseBlocks i1 j1 k1 l) = k1 + sumK l := by
  induction l with
  | nil =>
    intro i1 j1 k1
    simp only [collapseBlocks]
    split <;> simp [sumK] <;> omega
  | cons p rest ih =>
    intro i1 j1 k1
    obtain ⟨i2, j2, k2⟩ := p
    simp only [collapseBlocks]
    split
    · rw [ih]
      simp [sumK]
      omega
    · rw [sumK_append, ih]
      split <;> simp [sumK] <;> omega

theorem ratioM_le_left (a b : List Char) : ratioM a b ≤ a.length := by
  unfold ratioM getMatchingBlocks
  rw [sumK_append, collapseBlocks_sum]
  have := (mbAux_sum a b (a.length + 1) 0 a.length 0 b.length (by omega) (by omega)).1
  simp only [sumK] at this ⊢
  simp
  omega

theorem ratioM_le_right (a b : List Char) : ratioM a b ≤ b.length := by
  unfold ratioM getMatchingBlocks
  rw [sumK_append, collapseBlocks_sum]
  have := (mbAux_sum a b (a.length + 1) 0 a.length 0 b.length (by omega) (by omega)).2
  simp only [sumK] at this ⊢
  simp
  omega

theorem mbAux_single (a b : List Char) (fuel j n : Nat)
    (hf : flm a b 0 n 0 b.length = (0, j, n)) (hn : 0 < n) :
    mbAux a b (fuel + 1) 0 n 0 b.length = [(0, j, n)] := by
  simp only [mbAux, hf]
  rw [if_neg (show ¬(((0, j, n) : Nat × Nat × Nat).2.2 = 0) from by simp; omega)]
  rw [if_neg (show ¬((0 < ((0, j, n) : Nat × Nat × Nat).1 ∧
    0 < ((0, j, n) : Nat × Nat × Nat).2.1)) from by simp)]
  rw [if_neg (show ¬(((0, j, n) : Nat × Nat × Nat).1 + ((0, j, n) : Nat × Nat × Nat).2.2 < n ∧
    ((0, j, n) : Nat × Nat × Nat).2.1 + ((0, j, n) : Nat × Nat × Nat).2.2 < b.length) from by
      simp)]
  simp

theorem ratioM_self (s : List Char) : ratioM s s = s.length := by
  rcases eq_or_ne s [] with rfl | hs
  · simp [ratioM, getMatchingBlocks, mbAux, flm, flmCands, pickBest, collapseBlocks, sumK]
  · have hn : 0 < s.length := List.length_pos.mpr hs
    obtain ⟨j, hflm, _⟩ := flm_substring s [] [] hs
    rw [List.nil_append, List.append_nil] at hflm
    have hmb := mbAux_single s s s.length j s.length hflm hn
    unfold ratioM getMatchingBlocks
    rw [sumK_append, collapseBlocks_sum, hmb]
    simp [sumK]

theorem roundHE_le (num den : Nat) (hden : 0 < den) (h : num ≤ 100 * den) :
    roundHE num den ≤ 100 := by
  have hmod := Nat.div_add_mod num den
  have hr : num % den < den := Nat.mod_lt _ hden
  have hq : num / den ≤ 100 := by
    have h1 : num / den ≤ (100 * den) / den := Nat.div_le_div_right h
    rwa [Nat.mul_div_cancel _ hden] at h1
  unfold roundHE
  rcases Nat.lt_or_ge (num / den) 100 with hlt | hge
  · split
    · omega
    · split
      · omega
      · split <;> omega
  · have hq100 : num / den = 100 := by omega
    have hr0 : num % den = 0 := by
      rw [hq100] at hmod
      omega
    rw [if_pos (by omega)]
    omega

theorem maxFrac_mem (s : Nat × Nat) (l : List (Nat × Nat)) :
    maxFrac s l = s ∨ maxFrac s l ∈ l := by
  induction l generalizing s with
  | nil => left; rfl
  | cons c l ih =>
    unfold maxFrac at *
    simp only [List.foldl_cons]
    rcases ih (if s.1 * c.2 < c.1 * s.2 then c else s) with h | h
    · rw [h]
      split
      · right; simp
      · left; rfl
    · right; simp [h]

theorem prGo_le (sh lo : List Char) (blocks : List (Nat × Nat × Nat)) :
    ∀ acc, (∀ p ∈ acc, 2 * p.1 ≤ p.2 ∧ 0 < p.2) → prGo sh lo blocks acc ≤ 100 := by
  induction blocks with
  | nil =>
    intro acc hacc
    cases acc with
    | nil => simp [prGo]
    | cons s ss =>
      show roundHE (200 * (maxFrac s ss).1) (maxFrac s ss).2 ≤ 100
      have hmem : maxFrac s ss ∈ s :: ss := by
        rcases maxFrac_mem s ss with h | h
        · rw [h]; simp
        · simp [h]
      obtain ⟨h1, h2⟩ := hacc _ hmem
      exact roundHE_le _ _ h2 (by omega)
  | cons b rest ih =>
    intro acc hacc
    obtain ⟨bi, bj, bk⟩ := b
    simp only [prGo]
    set ls := (if bi < bj then bj - bi else 0) with hls
    set sub := (lo.drop ls).take sh.length with hsub
    split
    · omega
    · split
      · omega
      · rename_i ht _
        apply ih
        intro p hp
        rcases List.mem_append.mp hp with h | h
        · exact hacc p h
        · simp only [List.mem_singleton] at h
          subst h
          have hl := ratioM_le_left sh sub
          have hr := ratioM_le_right sh sub
          simp only []
          omega

theorem pRatioOrdered_le (sh lo : List Char) : pRatioOrdered sh lo ≤ 100 :=
  prGo_le sh lo (getMatchingBlocks sh lo) [] (by simp)

theorem pRatio_le (s1 s2 : List Char) : pRatio s1 s2 ≤ 100 := by
  unfold pRatio
  split <;> exact pRatioOrdered_le _ _

theorem pRatioOrdered_nil_left (y : List Char) : pRatioOrdered [] y = 100 := by
  unfold pRatioOrdered getMatchingBlocks
  have hmb : mbAux [] y 1 0 0 0 y.length = [] := by
    simp [mbAux, flm, flmCands, pickBest]
  simp only [List.length_nil, hmb, collapseBlocks]
  rw [if_neg (by omega)]
  simp [prGo]

theorem pRatio_nil_left (y : List Char) : pRatio [] y = 100 := by
  unfold pRatio
  rw [if_pos (by simp)]
  exact pRatioOrdered_nil_left y

theorem collapseBlocks_single (j k : Nat) (hk : k ≠ 0) :
    collapseBlocks 0 0 0 [(0, j, k)] = [(0, j, k)] := by
  by_cases hj : j = 0
  · subst hj
    simp [collapseBlocks, hk]
  · simp [collapseBlocks, hj, hk]

theorem pRatioOrdered_substring (s pre post : List Char) (hs : s ≠ []) :
    pRatioOrdered s (pre ++ s ++ post) = 100 := by
  have hn : 0 < s.length := List.length_pos.mpr hs
  obtain ⟨j, hflm, htake⟩ := flm_substring s pre post hs
  have hmb := mbAux_single s (pre ++ s ++ post) s.length j s.length hflm hn
  unfold pRatioOrdered getMatchingBlocks
  rw [hmb, collapseBlocks_single j s.length (by omega)]
  simp only [prGo]
  have hls : (if (0 : Nat) < j then j - 0 else 0) = j := by
    split <;> omega
  rw [hls, htake]
  rw [if_neg (by have := ratioM_self s; omega)]
  rw [if_pos (by have := ratioM_self s; omega)]

theorem pRatio_substring (s pre post : List Char) (hs : s ≠ []) :
    pRatio s (pre ++ s ++ post) = 100 := by
  unfold pRatio
  rw [if_pos (by simp [List.length_append]; omega)]
  exact pRatioOrdered_substring s pre post hs

theorem pRatio_self (s : List Char) : pRatio s s = 100 := by
  rcases eq_or_ne s [] with rfl | hs
  · exact pRatio_nil_left []
  · have := pRatio_substring s [] [] hs
    rwa [List.nil_append, List.append_nil] at this

theorem char_toNat_inj {c d : Char} (h : c.toNat = d.toNat) : c = d := by
  apply Char.eq_of_val_eq
  apply UInt32.eq_of_toBitVec_eq
  have h2 : c.val.toBitVec.toNat = d.val.toBitVec.toNat := h
  exact BitVec.eq_of_toNat_eq h2

theorem toNat_ofNat_small (n : Nat) (h : n < 55296) : (Char.ofNat n).toNat = n := by
  unfold Char.ofNat
  rw [dif_pos (Or.inl h)]
  rfl

theorem lowerRepl (c : Char) :
    pyLowerChar (if isWordChar (pyLowerChar c) then pyLowerChar c else ' ') =
      pyLowerChar (if isWordChar c then c else ' ') := by
  by_cases hu : 65 ≤ c.toNat ∧ c.toNat ≤ 90
  · have hval : (Char.ofNat (c.toNat + 32)).toNat = c.toNat + 32 :=
      toNat_ofNat_small _ (by omega)
    have hl : pyLowerChar c = Char.ofNat (c.toNat + 32) := by
      unfold pyLowerChar; rw [if_pos hu]
    have hw1 : isWordChar c = true := by
      simp only [isWordChar, decide_eq_true_eq]
      omega
    have hw2 : isWordChar (pyLowerChar c) = true := by
      rw [hl]
      simp only [isWordChar, decide_eq_true_eq, hval]
      omega
    have hll : pyLowerChar (pyLowerChar c) = pyLowerChar c := by
      conv_lhs => rw [hl]
      unfold pyLowerChar
      rw [if_neg (by rw [hval]; omega)]
      rw [← hl, if_pos hu]
    rw [if_pos hw2, if_pos hw1, hll]
  · have hid : pyLowerChar c = c := by unfold pyLowerChar; rw [if_neg hu]
    rw [hid]

theorem fullProcess_lower (s : List Char) :
    fullProcess (s.map pyLowerChar) = fullProcess s := by
  unfold fullProcess replaceNonWord
  rw [List.map_map, List.map_map, List.map_map]
  congr 1
  apply List.map_congr_left
  intro c _
  exact lowerRepl c

theorem plain_contains_false (s : List Char) (c : Char)
    (h : ∀ d ∈ s, d ≠ c) : s.contains c = false := by
  have hm : ¬ c ∈ s := fun hc => h c hc rfl
  simpa using hm

/-- Printable ASCII without quotes or backslash: the regime in which
Python `repr` is plain single quoting. -/
def plainChars (s : List Char) : Prop :=
  ∀ c ∈ s, 32 ≤ c.toNat ∧ c.toNat < 127 ∧ c ≠ apos ∧ c ≠ quot ∧ c ≠ bslash

instance (s : List Char) : Decidable (plainChars s) := by
  unfold plainChars
  infer_instance

theorem pyEscapeChar_plain (c : Char) (h1 : 32 ≤ c.toNat) (h2 : c.toNat < 127)
    (h3 : c ≠ apos) (h5 : c ≠ bslash) : pyEscapeChar apos c = [c] := by
  unfold pyEscapeChar
  rw [if_neg h5, if_neg h3, if_neg (by omega), if_neg (by omega), if_neg (by omega),
    if_neg (by omega)]

theorem flatMap_escape_plain (s : List Char) (h : plainChars s) :
    s.flatMap (pyEscapeChar apos) = s := by
  induction s with
  | nil => rfl
  | cons c cs ih =>
    have hc := h c (by simp)
    rw [List.flatMap_cons, pyEscapeChar_plain c hc.1 hc.2.1 hc.2.2.1 hc.2.2.2.2]
    rw [ih fun d hd => h d (by simp [hd])]
    rfl

theorem pyReprStr_plain (s : List Char) (h : plainChars s) :
    pyReprStr s = apos :: (s ++ [apos]) := by
  have hnc : s.contains apos = false :=
    plain_contains_false s apos fun d hd => (h d hd).2.2.1
  have hq : pyReprQuote s = apos := by
    unfold pyReprQuote
    rw [if_neg (by rw [hnc]; simp)]
  unfold pyReprStr
  rw [hq, flatMap_escape_plain s h]
  rfl

theorem mem_insertDesc {x y : List Char × Nat} {l : List (List Char × Nat)} :
    y ∈ insertDesc x l ↔ y = x ∨ y ∈ l := by
  induction l with
  | nil => simp [insertDesc]
  | cons z zs ih =>
    unfold insertDesc
    split
    · simp
    · simp only [List.mem_cons, ih]
      tauto

theorem length_insertDesc (x : List Char × Nat) (l : List (List Char × Nat)) :
    (insertDesc x l).length = l.length + 1 := by
  induction l with
  | nil => rfl
  | cons z zs ih =>
    unfold insertDesc
    split
    · simp
    · simp [ih]

theorem mem_sortDesc {y : List Char × Nat} {l : List (List Char × Nat)} :
    y ∈ sortDesc l ↔ y ∈ l := by
  induction l with
  | nil => simp [sortDesc]
  | cons z zs ih =>
    show y ∈ insertDesc z (sortDesc zs) ↔ _
    rw [mem_insertDesc]
    simp [ih]

theorem length_sortDesc (l : List (List Char × Nat)) :
    (sortDesc l).length = l.length := by
  induction l with
  | nil => rfl
  | cons z zs ih =>
    show (insertDesc z (sortDesc zs)).length = _
    rw [length_insertDesc, ih]
    rfl

theorem sortDesc_cons_max (x : List Char × Nat) (l : List (List Char × Nat))
    (h : ∀ y ∈ l, y.2 ≤ x.2) : ∃ tl, sortDesc (x :: l) = x :: tl := by
  show ∃ tl, insertDesc x (sortDesc l) = x :: tl
  cases hsl : sortDesc l with
  | nil => exact ⟨[], rfl⟩
  | cons z zs =>
    have hz : z.2 ≤ x.2 := h z (mem_sortDesc.mp (by rw [hsl]; simp))
    refine ⟨z :: zs, ?_⟩
    unfold insertDesc
    rw [if_pos hz]

theorem extractBest3_ne_nil (q : List Char) (cs : List (List Char)) (h : cs ≠ []) :
    extractBest3 q cs ≠ [] := by
  unfold extractBest3
  intro hcon
  have hlen := congrArg List.length hcon
  rw [List.length_take, length_sortDesc, List.length_map] at hlen
  simp only [List.length_nil] at hlen
  have := List.length_pos.mpr h
  omega

theorem extractBest3_head (q c : List Char) (rest : List (List Char))
    (h : ∀ d ∈ rest, pRatio (fullProcess q) (fullProcess d) ≤
      pRatio (fullProcess q) (fullProcess c)) :
    ∃ tl, extractBest3 q (c :: rest) =
      (c, pRatio (fullProcess q) (fullProcess c)) :: tl := by
  unfold extractBest3
  rw [List.map_cons]
  obtain ⟨tl, htl⟩ := sortDesc_cons_max (c, pRatio (fullProcess q) (fullProcess c))
    (rest.map fun d => (d, pRatio (fullProcess q) (fullProcess d))) (by
      intro y hy
      obtain ⟨d, hd, rfl⟩ := List.mem_map.mp hy
      exact h d hd)
  rw [htl]
  exact ⟨tl.take 2, rfl⟩

theorem matchLoop_cons (t : List Char) (ms : Nat) (g : List Char × Nat)
    (tl : List (List Char × Nat)) :
    matchLoop t ms (g :: tl) =
      some (if ms < pRatio t (pyStrPair g) ∧ 0 < pRatio t (pyStrPair g)
        then g.1 else smNoMatch t) := by
  show (if ms < pRatio t (pyStrPair g) ∧ 0 < pRatio t (pyStrPair g) then some g.1
    else some (smNoMatch t)) = _
  split <;> rfl

theorem findLoop_cons (f : List Char) (ms : Nat) (g : List Char × Nat)
    (tl : List (List Char × Nat)) :
    findLoop f ms (g :: tl) =
      some (if ms < pRatio f (pyStrPair g) ∧ 0 < pRatio f (pyStrPair g)
        then (g.1, pRatio f (pyStrPair g)) else (findNoMatch f, 0)) := by
  show (if ms < pRatio f (pyStrPair g) ∧ 0 < pRatio f (pyStrPair g)
      then some (g.1, pRatio f (pyStrPair g)) else some (findNoMatch f, 0)) = _
  split <;> rfl


theorem extractBest3_exists_head (q : List Char) (cs : List (List Char)) (h : cs ≠ []) :
    ∃ g tl, extractBest3 q cs = g :: tl := by
  cases hex : extractBest3 q cs with
  | nil => exact absurd hex (extractBest3_ne_nil q cs h)
  | cons g tl => exact ⟨g, tl, rfl⟩

/-- C1: for every query, candidate list and `min_score`, both matchers test
only the head of the top-3 shortlist against the threshold: when the
re-computed score of that head (the partial ratio of the query against the
stringified `(candidate, score)` tuple) exceeds both `min_score` and 0,
`find` returns that entry with the score and `string_match` returns the
entry; otherwise they return the no-match sentinel (with score 0 in
`find`); the loop result is identical whatever the remaining shortlist
entries are. -/
theorem matcher_checks_only_first_shortlist_entry (q : List Char)
    (cs : List (List Char)) (ms : Nat) (h : cs ≠ []) :
    ∃ g tl, extractBest3 q cs = g :: tl ∧
      string_match (some q) cs ms =
        some (if ms < pRatio q (pyStrPair g) ∧ 0 < pRatio q (pyStrPair g)
          then g.1 else smNoMatch q) ∧
      find q [cs] ms =
        some (if ms < pRatio q (pyStrPair g) ∧ 0 < pRatio q (pyStrPair g)
          then (g.1, pRatio q (pyStrPair g)) else (findNoMatch q, 0)) ∧
      ∀ tl2, matchLoop q ms (g :: tl2) = matchLoop q ms [g] ∧
        findLoop q ms (g :: tl2) = findLoop q ms [g] := by
  obtain ⟨g, tl, hgtl⟩ := extractBest3_exists_head q cs h
  refine ⟨g, tl, hgtl, ?_, ?_, fun tl2 => ⟨rfl, rfl⟩⟩
  · show matchLoop q ms (extractBest3 q cs) = _
    rw [hgtl, matchLoop_cons]
  · show (match findLoop q ms (extractBest3 q cs) with
      | some r => some r
      | none => find q [] ms) = _
    rw [hgtl, findLoop_cons]

/-- Closed instance of C1 discharging its hypothesis. -/
theorem matcher_checks_only_first_shortlist_entry_witness :
    ∃ g tl, extractBest3 "Rock".data ["Rockabilly".data, "Rock".data] = g :: tl ∧
      string_match (some "Rock".data) ["Rockabilly".data, "Rock".data] 65 =
        some (if 65 < pRatio "Rock".data (pyStrPair g) ∧ 0 < pRatio "Rock".data (pyStrPair g)
          then g.1 else smNoMatch "Rock".data) ∧
      find "Rock".data [["Rockabilly".data, "Rock".data]] 65 =
        some (if 65 < pRatio "Rock".data (pyStrPair g) ∧ 0 < pRatio "Rock".data (pyStrPair g)
          then (g.1, pRatio "Rock".data (pyStrPair g)) else (findNoMatch "Rock".data, 0)) ∧
      ∀ tl2, matchLoop "Rock".data 65 (g :: tl2) = matchLoop "Rock".data 65 [g] ∧
        findLoop "Rock".data 65 (g :: tl2) = findLoop "Rock".data 65 [g] :=
  matcher_checks_only_first_shortlist_entry "Rock".data
    ["Rockabilly".data, "Rock".data] 65 (by decide)

/-- C10: when the top-level directory of the walk holds at least one file,
`find`'s result is the result on that directory alone — the walk returns
during its first iteration and later directories never matter. -/
theorem find_uses_only_top_directory (q : List Char) (files : List (List Char))
    (rest : List (List (List Char))) (ms : Nat) (h : files ≠ []) :
    find q (files :: rest) ms = find q [files] ms := by
  obtain ⟨g, tl, hgtl⟩ := extractBest3_exists_head q files h
  show (match findLoop q ms (extractBest3 q files) with
      | some r => some r
      | none => find q rest ms) =
    (match findLoop q ms (extractBest3 q files) with
      | some r => some r
      | none => find q [] ms)
  rw [hgtl, findLoop_cons]

/-- Closed instance of C10 discharging its hypothesis. -/
theorem find_uses_only_top_directory_witness :
    find "a.mp3".data [["a.mp3".data], ["b.mp3".data]] 65 =
      find "a.mp3".data [["a.mp3".data]] 65 :=
  find_uses_only_top_directory "a.mp3".data ["a.mp3".data] [["b.mp3".data]] 65 (by decide)

/-- C7 counterexample: on an empty candidate list `string_match` returns
Python `None` — not the no-match sentinel the claim promises — and `find`
over a walk with no files likewise falls through with `None` rather than
the sentinel-with-score-0 pair. -/
theorem empty_candidates_return_none :
    string_match (some "Rock".data) [] 65 = none ∧
    (none : Option (List Char)) ≠ some (smNoMatch "Rock".data) ∧
    find "Rock".data [[]] 65 = none ∧
    (none : Option (List Char × Nat)) ≠ some (findNoMatch "Rock".data, 0) := by
  refine ⟨rfl, by simp, rfl, by simp⟩

/-- C7 amended: for every query and threshold, an empty candidate list (or
a file walk whose directories hold no files at all) makes the matcher fall
off its loop and return `None` — an absent value distinct from the
not-found sentinel — and no fault is raised. -/
theorem empty_candidates_yield_none (q : List Char) (ms : Nat) :
    string_match (some q) [] ms = none ∧
    find q [] ms = none ∧
    find q [[]] ms = none := by
  exact ⟨rfl, rfl, rfl⟩

/-- C5 counterexample: with `query = "Rock"` and candidates
`["Rockabilly", "Rock"]` the list contains an exact duplicate of the
query, yet the matcher returns `"Rockabilly"` (the stable top-3 selection
keeps the earlier candidate among the score-100 ties, and the re-score of
the stringified tuple `('Rockabilly', 100)` finds `"Rock"` as an exact
substring), so the duplicate is not returned. -/
theorem duplicate_not_returned :
    string_match (some "Rock".data) ["Rockabilly".data, "Rock".data] 65 =
      some "Rockabilly".data ∧
    find "Rock".data [["Rockabilly".data, "Rock".data]] 65 =
      some ("Rockabilly".data, 100) ∧
    "Rockabilly".data ≠ "Rock".data := by
  refine ⟨by decide, by decide, by decide⟩

/-- C5 amended: when the exact duplicate is the *first* candidate (so that
no earlier candidate ties at the top of the shortlist), the matcher does
return it with score 100, for every `min_score < 100`: the query must be
nonempty, printable-ASCII without quotes or backslashes (so that the
stringified tuple contains it verbatim) and short of the autojunk regime.
In general the matcher returns the first candidate attaining the maximal
shortlist score, which need not be the duplicate. -/
theorem duplicate_first_scores_100 (q : List Char) (rest : List (List Char))
    (walkRest : List (List (List Char))) (ms : Nat)
    (h0 : q ≠ []) (h1 : plainChars q) (h2 : ms < 100) (_hjunk : q.length ≤ 150) :
    find q ((q :: rest) :: walkRest) ms = some (q, 100) ∧
    string_match (some q) (q :: rest) ms = some q := by
  have hhead := extractBest3_head q q rest (by
    intro d _
    rw [pRatio_self (fullProcess q)]
    exact pRatio_le _ _)
  rw [pRatio_self (fullProcess q)] at hhead
  obtain ⟨tl, htl⟩ := hhead
  have hpair : pyStrPair (q, 100) =
      ['(', apos] ++ q ++ (apos :: ',' :: ' ' :: (Nat.repr 100).data ++ [')']) := by
    show '(' :: pyReprStr q ++ ',' :: ' ' :: (Nat.repr 100).data ++ [')'] = _
    rw [pyReprStr_plain q h1]
    simp
  have hscore : pRatio q (pyStrPair (q, 100)) = 100 := by
    rw [hpair]
    exact pRatio_substring q _ _ h0
  constructor
  · show (match findLoop q ms (extractBest3 q (q :: rest)) with
      | some r => some r
      | none => find q walkRest ms) = _
    rw [htl, findLoop_cons, hscore, if_pos ⟨h2, by omega⟩]
  · show matchLoop q ms (extractBest3 q (q :: rest)) = _
    rw [htl, matchLoop_cons, hscore, if_pos ⟨h2, by omega⟩]

/-- Closed instance of the amended C5 discharging its hypotheses. -/
theorem duplicate_first_scores_100_witness :
    find "Rock".data [["Rock".data, "Jazz".data]] 65 = some ("Rock".data, 100) ∧
    string_match (some "Rock".data) ["Rock".data, "Jazz".data] 65 = some "Rock".data :=
  duplicate_first_scores_100 "Rock".data ["Jazz".data] [] 65
    (by decide) (by decide) (by decide) (by decide)

/-- C6 counterexample: `string_match("beatles", ["The Beatles"])` matches
`"The Beatles"` (the raw re-score against `('The Beatles', 100)` is 86),
but `string_match("BEATLES", ["The Beatles"])` — the same query in upper
case — returns the no-match sentinel (its raw re-score is 14): the final
outcome is case-sensitive, so matched values differ between case
variants. -/
theorem matcher_not_case_insensitive :
    string_match (some "beatles".data) ["The Beatles".data] 65 =
      some "The Beatles".data ∧
    string_match (some "BEATLES".data) ["The Beatles".data] 65 =
      some (smNoMatch "BEATLES".data) ∧
    pRatio "beatles".data (pyStrPair ("The Beatles".data, 100)) = 86 ∧
    pRatio "BEATLES".data (pyStrPair ("The Beatles".data, 100)) = 14 := by
  refine ⟨by decide, by decide, by decide, by decide⟩

/-- C6 amended: only the shortlist stage is case-insensitive — queries that
agree after lower-casing produce identical top-3 shortlists (with identical
scores), because `process.extract` scores `full_process`-ed strings; the
re-score of the top entry then uses the raw query, so the final matched
value can differ between case variants of the same query. -/
theorem shortlist_case_insensitive (q q' : List Char) (cs : List (List Char))
    (h : q.map pyLowerChar = q'.map pyLowerChar) :
    extractBest3 q cs = extractBest3 q' cs := by
  have hfp : fullProcess q = fullProcess q' := by
    rw [← fullProcess_lower q, ← fullProcess_lower q', h]
  unfold extractBest3
  rw [hfp]

/-- Closed instance of the amended C6 discharging its hypothesis. -/
theorem shortlist_case_insensitive_witness :
    extractBest3 "beatles".data ["The Beatles".data] =
      extractBest3 "BEATLES".data ["The Beatles".data] :=
  shortlist_case_insensitive "beatles".data "BEATLES".data ["The Beatles".data] (by decide)

/-- C8 counterexample: a `None` query falls through the explicit guard and
returns Python `None`, not the sentinel; an empty-string query is *not*
guarded — every candidate scores 100 against the empty processed query
(`partial_ratio` returns 100 when the shorter side is empty), so the
matcher returns the *first candidate* instead of the sentinel. -/
theorem null_or_empty_query_not_sentinel :
    string_match none ["Rock".data] 65 = none ∧
    (none : Option (List Char)) ≠ some (smNoMatch "Rock".data) ∧
    string_match (some []) ["Rock".data] 65 = some "Rock".data ∧
    some "Rock".data ≠ some (smNoMatch []) := by
  refine ⟨rfl, by simp, by decide, by decide⟩

/-- C8 amended: a `None` query is guarded explicitly and yields `None` (no
matching is attempted, but the result is an absent value, not the
sentinel); an empty-string query passes the guard, every candidate scores
100 (partial ratio with an empty shorter side is 100), and for every
`min_score < 100` the matcher returns the first candidate. -/
theorem null_query_none_empty_query_first (cs : List (List Char)) (ms : Nat)
    (c : List Char) (rest : List (List Char)) (hms : ms < 100) :
    string_match none cs ms = none ∧
    string_match (some []) (c :: rest) ms = some c := by
  refine ⟨rfl, ?_⟩
  have hfp : fullProcess ([] : List Char) = [] := rfl
  have hhead := extractBest3_head [] c rest (by
    intro d _
    rw [hfp, pRatio_nil_left (fullProcess c)]
    exact pRatio_le _ _)
  rw [hfp, pRatio_nil_left (fullProcess c)] at hhead
  obtain ⟨tl, htl⟩ := hhead
  show matchLoop [] ms (extractBest3 [] (c :: rest)) = _
  rw [htl, matchLoop_cons, pRatio_nil_left (pyStrPair (c, 100)), if_pos ⟨hms, by omega⟩]

/-- Closed instance of the amended C8 discharging its hypothesis. -/
theorem null_query_none_empty_query_first_witness :
    string_match none ["Rock".data] 65 = none ∧
    string_match (some []) ["Rock".data] 65 = some "Rock".data :=
  null_query_none_empty_query_first ["Rock".data] 65 "Rock".data [] (by decide)

theorem string_match_isSome_iff (t : List Char) (vals : List (List Char)) :
    (string_match (some t) vals 65).isSome ↔ vals ≠ [] := by
  cases vals with
  | nil => simp [string_match, matchLoop, extractBest3, sortDesc]
  | cons v vs =>
    obtain ⟨g, tl, hgtl⟩ := extractBest3_exists_head t (v :: vs) (by simp)
    show (matchLoop t 65 (extractBest3 t (v :: vs))).isSome ↔ _
    rw [hgtl, matchLoop_cons]
    simp

theorem colId_mem_colIds (c : ColId) : c ∈ colIds := by
  cases c <;> simp [colIds]

theorem mem_filteredPairs_iff (q : AttrQuery) (df : List Track) (c : ColId)
    (v : List Char) :
    (c, v) ∈ filteredPairs q df ↔
      string_match (colFrag c q) (columnValues df c) 65 = some v := by
  unfold filteredPairs masterTriples
  rw [List.mem_filterMap]
  constructor
  · rintro ⟨p, hp, hmap⟩
    obtain ⟨c', _, rfl⟩ := List.mem_map.mp hp
    rcases Option.map_eq_some'.mp hmap with ⟨w, hw, heq⟩
    obtain ⟨rfl, rfl⟩ := Prod.mk.injEq .. |>.mp heq
    exact hw
  · intro hsm
    refine ⟨(c, string_match (colFrag c q) (columnValues df c) 65),
      List.mem_map.mpr ⟨c, colId_mem_colIds c, rfl⟩, ?_⟩
    rw [hsm]
    rfl

/-- C2 amended: the selector's column filter holds a pair for *exactly*
the attributes whose query fragment is non-null and whose column has at
least one non-missing value; the paired value is `string_match`'s result —
the matched candidate on success but the no-match *message* on failure
(only a Python `None` result is dropped by the comprehension), so a failed
match still contributes an equality constraint, one that compares the
column against the sentinel message. -/
theorem filter_pair_exists_iff (q : AttrQuery) (df : List Track) (c : ColId) :
    (∃ v, (c, v) ∈ filteredPairs q df) ↔
      (colFrag c q).isSome ∧ columnValues df c ≠ [] := by
  constructor
  · rintro ⟨v, hv⟩
    have hsm := (mem_filteredPairs_iff q df c v).mp hv
    cases hf : colFrag c q with
    | none => rw [hf] at hsm; exact absurd hsm (by simp [string_match])
    | some t =>
      refine ⟨by simp, ?_⟩
      intro hnil
      rw [hf, hnil] at hsm
      exact absurd hsm (by simp [string_match, matchLoop, extractBest3, sortDesc])
  · rintro ⟨h1, h2⟩
    obtain ⟨t, ht⟩ := Option.isSome_iff_exists.mp h1
    have hss := (string_match_isSome_iff t (columnValues df c)).mpr h2
    obtain ⟨v, hv⟩ := Option.isSome_iff_exists.mp hss
    exact ⟨v, (mem_filteredPairs_iff q df c v).mpr (by rw [ht, hv])⟩

/-- A sample dataset row: `a.mp3`, genre `Rock`, all other attributes
missing. -/
def trackRock : Track :=
  ⟨some "a.mp3".data, none, none, none, none, none, some "Rock".data, none, none, none⟩

/-- A sample dataset row: `b.mp3`, genre `Jazz`, all other attributes
missing. -/
def trackJazz : Track :=
  ⟨some "b.mp3".data, none, none, none, none, none, some "Jazz".data, none, none, none⟩

/-- An attribute query whose only fragment is the genre `"zzz"`, which
matches nothing in the sample dataset. -/
def queryZzz : AttrQuery := { AttrQuery.null with track_genre := some "zzz".data }

/-- C2 counterexample: the genre fragment `"zzz"` fails to match (score 0
against `Rock`), yet the column filter *does* contain the pair binding the
genre column to the no-match message; the mask then matches no row and the
selector reports the not-found reply — whereas under the claimed behaviour
the filter would be empty, the mask all-true, and the single row would
play. -/
theorem failed_match_still_constrains :
    filteredPairs queryZzz [trackRock] =
      [(ColId.track_genre, smNoMatch "zzz".data)] ∧
    [trackRock].filter (rowOk (filteredPairs queryZzz [trackRock])) = [] ∧
    pmbaTop none queryZzz [trackRock] 0 [["a.mp3".data]] "D:/Music/".data "sir".data =
      ([], .ok (some (noCombiMsg "sir".data))) := by
  refine ⟨by decide, by decide, by rfl⟩

/-- C3: `randint(0, len(matching))` is inclusive of `len(matching)`, so on
a dataset whose two rows both match (all fragments null, mask all-true)
the legal random draw 2 sends `iloc` out of range: the `IndexError` is
caught at the boundary, logged, and *no row is selected* — while draw 0
selects and plays a row.  The claim that every draw selects a row of the
matching subset fails; selection is uniform over `len+1` outcomes, one of
which is the crash. -/
theorem inclusive_randint_misses_selection :
    pmbaTop none AttrQuery.null [trackRock, trackJazz] 2 [["a.mp3".data]]
      "D:/Music/".data "sir".data = ([.logError], .ok none) ∧
    pmbaTop none AttrQuery.null [trackRock, trackJazz] 0
      [["a.mp3".data, "b.mp3".data]] "D:/Music/".data "sir".data =
      ([.startfile "D:/Music/a.mp3".data], .ok none) ∧
    [trackRock, trackJazz].filter
      (rowOk (filteredPairs AttrQuery.null [trackRock, trackJazz])) =
      [trackRock, trackJazz] := by
  refine ⟨by rfl, by rfl, by decide⟩

/-- C4 counterexample: supplying the literal identifier `"Rok"` does not
resolve it directly — `play_music` hands it to the fuzzy `find`, which
resolves it to `"Rock.mp3"` at score 67 and plays that file, a name
different from the supplied identifier. -/
theorem direct_identifier_still_fuzzy :
    pmbaTop (some "Rok".data) AttrQuery.null [trackRock] 0 [["Rock.mp3".data]]
      "D:/Music/".data "sir".data =
      ([.startfile "D:/Music/Rock.mp3".data], .ok none) ∧
    find "Rok".data [["Rock.mp3".data]] 65 = some ("Rock.mp3".data, 67) ∧
    "Rok".data ≠ "Rock.mp3".data := by
  refine ⟨by rfl, by decide, by decide⟩

/-- C4 amended: a supplied `music_file` does bypass the attribute-matching
and dataset-filtering machinery — the outcome is independent of the
fragments, the dataset, the random draw and the title, and equals a plain
`play_music` call — but that call resolves the identifier by fuzzy
matching against the directory listing, not directly. -/
theorem music_file_bypasses_attribute_machinery (f : List Char)
    (q q' : AttrQuery) (df df' : List Track) (r r' : Nat)
    (walk : List (List (List Char))) (dir title title' : List Char) :
    pmbaTop (some f) q df r walk dir title =
      pmbaTop (some f) q' df' r' walk dir title' ∧
    pmbaTop (some f) q df r walk dir title =
      ((playMusicTop (some f) walk dir).1, .ok none) := by
  exact ⟨rfl, rfl⟩

theorem catchAll_ok {α : Type} (r : List Effect × Except Fault (Option α)) :
    ∃ e v, catchAll r = (e, .ok v) := by
  obtain ⟨eff, res⟩ := r
  cases res with
  | ok v => exact ⟨eff, v, rfl⟩
  | error f => exact ⟨eff ++ [.logError], none, rfl⟩

theorem catchAll_error {α : Type} (r : List Effect × Except Fault (Option α))
    (f : Fault) (h : r.2 = .error f) :
    catchAll r = (r.1 ++ [.logError], .ok none) := by
  obtain ⟨eff, res⟩ := r
  cases res with
  | ok v => simp at h
  | error g => rfl

/-- C9: every public operation sits behind a `try/except Exception`
boundary: whatever the inputs — including those whose bodies genuinely
fault (the inclusive-randint `IndexError`, the `None`-unpacking and
`NaN`-processing `TypeError`s) — the public result is a normal return,
never a propagated fault, and when the body did fault the boundary appends
the error log and degrades to Python `None`, which callers treat as
not-found. -/
theorem no_fault_escapes_public_boundary (mf : Option (List Char))
    (q : AttrQuery) (df : List Track) (rand : Nat)
    (walk : List (List (List Char))) (dir title : List Char)
    (file text : Option (List Char)) (tlist : List (List Char)) (ms : Nat) :
    (∃ e v, pmbaTop mf q df rand walk dir title = (e, .ok v)) ∧
    (∃ e v, playMusicTop file walk dir = (e, .ok v)) ∧
    (∃ e v, findTop file walk ms = (e, .ok v)) ∧
    (∃ e v, stringMatchTop text tlist ms = (e, .ok v)) ∧
    (∀ f, (pmbaRun mf q df rand walk dir title).2 = .error f →
      pmbaTop mf q df rand walk dir title =
        ((pmbaRun mf q df rand walk dir title).1 ++ [.logError], .ok none)) := by
  refine ⟨catchAll_ok _, catchAll_ok _, catchAll_ok _, catchAll_ok _, ?_⟩
  intro f hf
  exact catchAll_error _ f hf

/-- Closed instance of C9 at a fault-triggering input: the inclusive
random draw 2 on a two-row matching set still yields a normal return. -/
theorem no_fault_escapes_public_boundary_witness :
    (∃ e v, pmbaTop none AttrQuery.null [trackRock, trackJazz] 2 [["a.mp3".data]]
      "D:/Music/".data "sir".data = (e, .ok v)) :=
  (no_fault_escapes_public_boundary none AttrQuery.null [trackRock, trackJazz] 2
    [["a.mp3".data]] "D:/Music/".data "sir".data none none [] 65).1
